import Mathlib

/- Shallow embedding of the event-driven tick backtester:
   `data.py` (HistoricCSVDataHandler) and the strategy part of
   `aapl_csv_data.py` (BSStrategy).  Prices are exact rationals,
   timestamps are natural numbers (seconds since epoch); the 5-minute
   resampling duration is the parameter `dur` (300 in concrete runs). -/

/-- A single tick record: timestamp index and the `tick` price column
(`data.py`, `_open_convert_csv_files`: columns `datetime`, `tick`). -/
structure Tick where
  time : ℕ
  tick : ℚ
deriving DecidableEq, Repr

/-- An OHLC bar as produced by `resample(...).ohlc()` inside
`HistoricCSVDataHandler.update_ticks`. -/
structure Bar where
  «open» : ℚ
  high : ℚ
  low : ℚ
  close : ℚ
deriving DecidableEq, Repr

/-- The left-closed bucket of a timestamp: `resample("5T", label='left',
closed='left')` groups a timestamp `t` into the window starting at
`(t / dur) * dur`. -/
def bucket (dur t : ℕ) : ℕ := t / dur

/-- `ohlc ts` is the bar obtained from a (time-ordered, nonempty) tick
group by `.ohlc()`: open = first price, high = max, low = min,
close = last price.  The empty case never arises; it returns zeros. -/
def ohlc : List Tick → Bar
  | [] => ⟨0, 0, 0, 0⟩
  | t :: rest =>
    ⟨t.tick,
     rest.foldl (fun a x => max a x.tick) t.tick,
     rest.foldl (fun a x => min a x.tick) t.tick,
     (rest.getLastD t).tick⟩

/-- One tick of the bar-aggregation logic inside
`HistoricCSVDataHandler.update_ticks`: append the tick to `current_bar`,
resample by buckets; if the rows now span more than one bucket
(`len(self.downsamp[s]) > 1`), emit the first bucket as an OHLC bar and
keep only the last row (`current_bar.iloc[[-1]]`); otherwise keep
accumulating.  The resample group list has `bmax - bmin + 1` entries
(empty gaps included), so its length exceeds 1 exactly when
`bmin ≠ bmax`. -/
def feedTick (dur : ℕ) (cb : List Tick) (t : Tick) : List Tick × Option Bar :=
  let cb2 := cb ++ [t]
  let bks := cb2.map fun x => bucket dur x.time
  let bmin := bks.foldl min (bucket dur t.time)
  let bmax := bks.foldl max (bucket dur t.time)
  if bmin = bmax then (cb2, none)
  else ([t], some (ohlc (cb2.filter fun x => bucket dur x.time = bmin)))

/-- Per-symbol state of `HistoricCSVDataHandler`: the remaining CSV rows
(the chunked reader cursor), `latest_symbol_data` (replaced wholesale by
`[tick]` on each consumed tick), `current_bar`, and the append-only
`latest_bars_data`. -/
structure SymData where
  pending : List Tick
  latest : List Tick
  currentBar : List Tick
  bars : List Bar
deriving DecidableEq, Repr

/-- `_open_convert_csv_files` state for one symbol. -/
def initSymData (csv : List Tick) : SymData := ⟨csv, [], [], []⟩

/-- One symbol's share of `update_ticks`: on `StopIteration` the success
flag is `false` and the state is untouched; otherwise consume one tick,
store it as the latest tick, and run the aggregation step. -/
def updateTicksSym (dur : ℕ) (d : SymData) : SymData × Bool :=
  match d.pending with
  | [] => (d, false)
  | t :: rest =>
    let fb := feedTick dur d.currentBar t
    (⟨rest, [t], fb.1, d.bars ++ fb.2.toList⟩, true)

/-- The step-pulse `MarketEvent()` put on the queue at the end of
`update_ticks`. -/
inductive MEvent | market
deriving DecidableEq, Repr

/-- The multi-symbol portion of `HistoricCSVDataHandler` state touched by
`update_ticks`: one `SymData` per symbol (in symbol-list order) plus the
`continue_backtest` flag. -/
structure DH where
  symdata : List SymData
  continue_backtest : Bool
deriving DecidableEq, Repr

/-- `HistoricCSVDataHandler.update_ticks`: every symbol is processed in
turn (a `StopIteration` on one symbol clears `continue_backtest` but does
not skip the others), and a `MarketEvent` is put unconditionally at the
end. -/
def update_ticks (dur : ℕ) (dh : DH) : DH × List MEvent :=
  (⟨dh.symdata.map fun d => (updateTicksSym dur d).1,
    dh.continue_backtest && dh.symdata.all fun d => (updateTicksSym dur d).2⟩,
   [MEvent.market])

/-- The per-symbol position phase stored in `BSStrategy.bought`. -/
inductive Phase | OUT | LONG | SHORT
deriving DecidableEq, Repr

/-- Signal directions carried by `SignalEvent`. -/
inductive Direction | LONG | SHORT | EXIT
deriving DecidableEq, Repr

/-- Per-symbol strategy state: `bought[s]` together with the three
entries of `omm_price[s] = [po, max, min]` (entry price, running max,
running min; the local names in `calculate_signals` are `po_price`,
`max_price`, `min_price`). -/
structure SymState where
  bought : Phase
  po_price : ℚ
  max_price : ℚ
  min_price : ℚ
deriving DecidableEq, Repr

/-- `_calculate_initial_bought` and the `omm_price` initialisation. -/
def initSymState : SymState := ⟨.OUT, 0, 0, 0⟩

/-- The configuration fields stored by `BSStrategy.__init__`. -/
structure StratCfg where
  short_window : ℕ
  mid_window : ℕ
  long_window : ℕ
  use_window : ℕ
  min_diff : ℚ
  min_deep : ℚ
  plus : ℚ
  sl : ℚ
  tp : ℚ
  ts_step : ℚ
deriving DecidableEq, Repr

/-- `BSStrategy.__init__`: stores the windows, sets
`use_window = 4 * long_window` and scales every threshold by `0.0001`.
No validation of the span ordering (or of anything else) is performed. -/
def mkBSStrategy (short_window mid_window long_window : ℕ)
    (min_diff min_deep plus sl tp ts_step : ℚ) : StratCfg :=
  ⟨short_window, mid_window, long_window, 4 * long_window,
   min_diff * (1 / 10000), min_deep * (1 / 10000), plus * (1 / 10000),
   sl * (1 / 10000), tp * (1 / 10000), ts_step * (1 / 10000)⟩

/-- `BSStrategy._calculate_min_max_price`: once an entry price is
recorded (`omm_price[symbol][0] != 0`), fold the current tick price into
the running max and min. -/
def calculate_min_max_price (st : SymState) (tick_price : ℚ) : SymState :=
  if st.po_price ≠ 0 then
    { st with max_price := max st.max_price tick_price,
              min_price := min st.min_price tick_price }
  else st

/-- `Series.ewm(span=s, adjust=False).mean().iloc[-1]`: the recurrence
`y0 = x0`, `y[i] = x[i]*k + y[i-1]*(1-k)` with `k = 2/(s+1)`. -/
def ewm_last (span : ℕ) : List ℚ → ℚ
  | [] => 0
  | x :: xs =>
    let k : ℚ := 2 / (span + 1)
    xs.foldl (fun acc p => p * k + acc * (1 - k)) x

/-- Python list slicing `l[-n:]` as used by `get_latest_bars`: the last
`n` entries, or the whole list when `n = 0` (Python's `l[-0:]`). -/
def lastSlice (n : ℕ) (l : List α) : List α :=
  if n = 0 then l else l.drop (l.length - n)

/-- The LONG-entry condition of `calculate_signals` (the line-134 `if`),
read on the close `lb` of the most recent finalized bar and the three
EMAs. -/
def longEntryCond (c : StratCfg) (sE mE lE lb : ℚ) (st : SymState)
    (hour_et hour_ld : ℕ) : Prop :=
  sE > lb ∧ lb > mE ∧ mE > lE ∧ st.bought = .OUT ∧
  8 ≤ hour_ld ∧ hour_et < 17 ∧
  c.min_deep ≤ sE - lb ∧ c.min_diff ≤ sE - mE ∧ sE - mE + c.plus ≤ mE - lE

instance (c : StratCfg) (sE mE lE lb : ℚ) (st : SymState)
    (hour_et hour_ld : ℕ) :
    Decidable (longEntryCond c sE mE lE lb st hour_et hour_ld) := by
  unfold longEntryCond; exact inferInstance

/-- The SHORT-entry condition (the line-143 `elif`), the mirror image of
the LONG entry. -/
def shortEntryCond (c : StratCfg) (sE mE lE lb : ℚ) (st : SymState)
    (hour_et hour_ld : ℕ) : Prop :=
  sE < lb ∧ lb < mE ∧ mE < lE ∧ st.bought = .OUT ∧
  8 ≤ hour_ld ∧ hour_et < 17 ∧
  c.min_deep ≤ lb - sE ∧ c.min_diff ≤ mE - sE ∧ mE - sE + c.plus ≤ lE - mE

instance (c : StratCfg) (sE mE lE lb : ℚ) (st : SymState)
    (hour_et hour_ld : ℕ) :
    Decidable (shortEntryCond c sE mE lE lb st hour_et hour_ld) := by
  unfold shortEntryCond; exact inferInstance

/-- The LONG-exit disjunction (the line-152 `elif`), compared against the
latest tick price `t`; `st` is the state after the running min/max
update. -/
def longExitCond (c : StratCfg) (t : ℚ) (st : SymState) : Prop :=
  st.po_price + c.tp ≤ t ∨
  (c.ts_step ≤ st.max_price - st.po_price ∧ t ≤ st.po_price) ∨
  (st.max_price - st.po_price < c.ts_step ∧ t ≤ st.po_price - c.sl)

instance (c : StratCfg) (t : ℚ) (st : SymState) :
    Decidable (longExitCond c t st) := by
  unfold longExitCond; exact inferInstance

/-- The SHORT-exit disjunction (the line-161 `elif`). -/
def shortExitCond (c : StratCfg) (t : ℚ) (st : SymState) : Prop :=
  t ≤ st.po_price - c.tp ∨
  (c.ts_step ≤ st.po_price - st.min_price ∧ st.po_price ≤ t) ∨
  (st.po_price - st.min_price < c.ts_step ∧ st.po_price + c.sl ≤ t)

instance (c : StratCfg) (t : ℚ) (st : SymState) :
    Decidable (shortExitCond c t st) := by
  unfold shortExitCond; exact inferInstance

/-- The four-way `elif` ladder of `calculate_signals`, taking the already
computed EMAs, last bar close `lb`, tick price `t`, session hours, and
the state after the running min/max update.  Entries set all three
`omm_price` anchors to the tick price; exits reset them to 0. -/
def signalCore (c : StratCfg) (sE mE lE lb t : ℚ) (hour_et hour_ld : ℕ)
    (st : SymState) : SymState × List Direction :=
  if longEntryCond c sE mE lE lb st hour_et hour_ld then
    (⟨.LONG, t, t, t⟩, [.LONG])
  else if shortEntryCond c sE mE lE lb st hour_et hour_ld then
    (⟨.SHORT, t, t, t⟩, [.SHORT])
  else if st.bought = .LONG ∧ longExitCond c t st then
    (⟨.OUT, 0, 0, 0⟩, [.EXIT])
  else if st.bought = .SHORT ∧ shortExitCond c t st then
    (⟨.OUT, 0, 0, 0⟩, [.EXIT])
  else (st, [])

/-- The body of `BSStrategy.calculate_signals` for one symbol: update the
running min/max from the tick price, then — only when the close window
has exactly `use_window` entries — compute the three EMAs and run the
entry/exit ladder.  `window.getLastD 0` is `bars_value.iloc[-1]` (the
window is nonempty whenever `use_window > 0`). -/
def calcSignalsSym (c : StratCfg) (window : List ℚ) (tick_price : ℚ)
    (hour_et hour_ld : ℕ) (st : SymState) : SymState × List Direction :=
  if window.length = c.use_window then
    signalCore c (ewm_last c.short_window window)
      (ewm_last c.mid_window window) (ewm_last c.long_window window)
      (window.getLastD 0) tick_price hour_et hour_ld
      (calculate_min_max_price st tick_price)
  else (calculate_min_max_price st tick_price, [])

/-- Modelled from the spec: the driver loop (`backtest.py`, not part of
`src/`) performs, per step, `update_ticks` followed by
`calculate_signals` on the resulting `MarketEvent` (spec §2 control
flow).  This is its restriction to one symbol; `none` models the uncaught
`IndexError` raised by `get_latest_tick_datetime` when no tick was ever
consumed for the symbol.  `tzh` abstracts the timezone conversion of the
tick timestamp to the pair (New York hour, London hour); the gate
comparisons themselves live in `calculate_signals`. -/
def symStep0 (dur : ℕ) (c : StratCfg) (tzh : ℕ → ℕ × ℕ)
    (p : SymData × SymState) :
    Option (SymData × SymState × List Direction) :=
  let d := (updateTicksSym dur p.1).1
  match d.latest.getLast? with
  | none => none
  | some t =>
    let hs := tzh t.time
    let r := calcSignalsSym c (lastSlice c.use_window (d.bars.map Bar.close))
      t.tick hs.1 hs.2 p.2
    some (d, r.1, r.2)

/-- Reachable per-symbol states of a run: start from a (nonempty) CSV and
the initial strategy state, and take successful driver steps. -/
inductive ReachSym (dur : ℕ) (c : StratCfg) (tzh : ℕ → ℕ × ℕ) :
    SymData × SymState → Prop
  | init (csv : List Tick) (hne : csv ≠ []) :
      ReachSym dur c tzh (initSymData csv, initSymState)
  | step {p : SymData × SymState} {d : SymData} {st : SymState}
      {evs : List Direction} :
      ReachSym dur c tzh p → symStep0 dur c tzh p = some (d, st, evs) →
      ReachSym dur c tzh (d, st)

/-- Iterated driver steps (used to exhibit concrete reachable states). -/
def stepIter (dur : ℕ) (c : StratCfg) (tzh : ℕ → ℕ × ℕ) :
    ℕ → SymData × SymState → Option (SymData × SymState)
  | 0, p => some p
  | n + 1, p =>
    match symStep0 dur c tzh p with
    | none => none
    | some (d, st, _) => stepIter dur c tzh n (d, st)

/-- The Scenario-B close window: eight closes whose short/mid/long EMAs
(spans 3, 4, 2 with `use_window = 8`) are exactly 1.0010, 1.0000, 0.9990,
and whose last close is 1.0005. -/
def scenarioBWindow : List ℚ :=
  [5723/6000, 5723/6000, 5723/6000, 5723/6000, 5723/6000,
   3439/3000, 2287/2400, 2001/2000]

/-- `n` iterations of the data side of the driver loop for one symbol. -/
def runDataN (dur : ℕ) : ℕ → SymData → SymData
  | 0, d => d
  | n + 1, d => runDataN dur n (updateTicksSym dur d).1

/-- Run invariant for one symbol: a non-OUT phase or a nonzero recorded
entry price certifies that the bar history already reached the strategy's
window length (entries only fire on a full, nonempty window), and the
latest-tick list is nonempty once a tick has been consumed (initially the
pending stream is nonempty instead). -/
def SymInv (uw : ℕ) (p : SymData × SymState) : Prop :=
  (p.2.bought ≠ .OUT → 0 < uw ∧ uw ≤ p.1.bars.length) ∧
  (p.2.po_price ≠ 0 → 0 < uw ∧ uw ≤ p.1.bars.length) ∧
  (p.1.latest ≠ [] ∨ p.1.pending ≠ [])

/-- Folding a whole tick stream through the bar-aggregation step of
`update_ticks`, starting from an open `current_bar` buffer: the finalized
bars in emission order and the final buffer. -/
def feedAll (dur : ℕ) (cb : List Tick) (ts : List Tick) :
    List Bar × List Tick :=
  ts.foldl (fun acc t =>
    let fb := feedTick dur acc.2 t
    (acc.1 ++ fb.2.toList, fb.1)) ([], cb)

theorem calculate_min_max_price_bought (st : SymState) (t : ℚ) :
    (calculate_min_max_price st t).bought = st.bought := by
  unfold calculate_min_max_price; split_ifs <;> rfl

theorem calculate_min_max_price_po (st : SymState) (t : ℚ) :
    (calculate_min_max_price st t).po_price = st.po_price := by
  unfold calculate_min_max_price; split_ifs <;> rfl

theorem calculate_min_max_price_of_po_zero (st : SymState) (t : ℚ)
    (h : st.po_price = 0) : calculate_min_max_price st t = st := by
  unfold calculate_min_max_price
  rw [if_neg (by simp [h])]

theorem longEntryCond_minmax (c : StratCfg) (sE mE lE lb t : ℚ)
    (st : SymState) (he hl : ℕ) :
    longEntryCond c sE mE lE lb (calculate_min_max_price st t) he hl ↔
      longEntryCond c sE mE lE lb st he hl := by
  unfold longEntryCond
  rw [calculate_min_max_price_bought]

theorem shortEntryCond_minmax (c : StratCfg) (sE mE lE lb t : ℚ)
    (st : SymState) (he hl : ℕ) :
    shortEntryCond c sE mE lE lb (calculate_min_max_price st t) he hl ↔
      shortEntryCond c sE mE lE lb st he hl := by
  unfold shortEntryCond
  rw [calculate_min_max_price_bought]

theorem calcSignalsSym_long_iff (c : StratCfg) (w : List ℚ) (t : ℚ)
    (he hl : ℕ) (st : SymState) :
    (calcSignalsSym c w t he hl st).2 = [Direction.LONG] ↔
      (w.length = c.use_window ∧
        longEntryCond c (ewm_last c.short_window w) (ewm_last c.mid_window w)
          (ewm_last c.long_window w) (w.getLastD 0) st he hl) := by
  by_cases hw : w.length = c.use_window
  · unfold calcSignalsSym signalCore
    rw [if_pos hw]
    by_cases h1 : longEntryCond c (ewm_last c.short_window w)
        (ewm_last c.mid_window w) (ewm_last c.long_window w) (w.getLastD 0)
        (calculate_min_max_price st t) he hl
    · rw [if_pos h1]
      exact ⟨fun _ => ⟨hw, (longEntryCond_minmax c _ _ _ _ t st he hl).mp h1⟩,
        fun _ => rfl⟩
    · have h1' : ¬ longEntryCond c (ewm_last c.short_window w)
          (ewm_last c.mid_window w) (ewm_last c.long_window w)
          (w.getLastD 0) st he hl :=
        fun h => h1 ((longEntryCond_minmax c _ _ _ _ t st he hl).mpr h)
      rw [if_neg h1]
      split_ifs with h2 h3 h4 <;>
        exact ⟨fun h => by simp at h, fun h => absurd h.2 h1'⟩
  · unfold calcSignalsSym
    rw [if_neg hw]
    exact ⟨fun h => by simp at h, fun h => absurd h.1 hw⟩

theorem calcSignalsSym_short_iff (c : StratCfg) (w : List ℚ) (t : ℚ)
    (he hl : ℕ) (st : SymState) :
    (calcSignalsSym c w t he hl st).2 = [Direction.SHORT] ↔
      (w.length = c.use_window ∧
        shortEntryCond c (ewm_last c.short_window w) (ewm_last c.mid_window w)
          (ewm_last c.long_window w) (w.getLastD 0) st he hl) := by
  by_cases hw : w.length = c.use_window
  · unfold calcSignalsSym signalCore
    rw [if_pos hw]
    by_cases h1 : longEntryCond c (ewm_last c.short_window w)
        (ewm_last c.mid_window w) (ewm_last c.long_window w) (w.getLastD 0)
        (calculate_min_max_price st t) he hl
    · have hex : ¬ shortEntryCond c (ewm_last c.short_window w)
          (ewm_last c.mid_window w) (ewm_last c.long_window w)
          (w.getLastD 0) st he hl :=
        fun h =>
          absurd ((longEntryCond_minmax c _ _ _ _ t st he hl).mp h1).1
            (lt_asymm h.1)
      rw [if_pos h1]
      exact ⟨fun h => by simp at h, fun h => absurd h.2 hex⟩
    · rw [if_neg h1]
      by_cases h2 : shortEntryCond c (ewm_last c.short_window w)
          (ewm_last c.mid_window w) (ewm_last c.long_window w) (w.getLastD 0)
          (calculate_min_max_price st t) he hl
      · rw [if_pos h2]
        exact ⟨fun _ => ⟨hw, (shortEntryCond_minmax c _ _ _ _ t st he hl).mp h2⟩,
          fun _ => rfl⟩
      · have h2' : ¬ shortEntryCond c (ewm_last c.short_window w)
            (ewm_last c.mid_window w) (ewm_last c.long_window w)
            (w.getLastD 0) st he hl :=
          fun h => h2 ((shortEntryCond_minmax c _ _ _ _ t st he hl).mpr h)
        split_ifs with h3 h4 <;>
          exact ⟨fun h => by simp at h, fun h => absurd h.2 h2'⟩
  · unfold calcSignalsSym
    rw [if_neg hw]
    exact ⟨fun h => by simp at h, fun h => absurd h.1 hw⟩

theorem calcSignalsSym_long_effect (c : StratCfg) (w : List ℚ) (t : ℚ)
    (he hl : ℕ) (st : SymState) (hw : w.length = c.use_window)
    (hc : longEntryCond c (ewm_last c.short_window w) (ewm_last c.mid_window w)
      (ewm_last c.long_window w) (w.getLastD 0) st he hl) :
    calcSignalsSym c w t he hl st = (⟨.LONG, t, t, t⟩, [Direction.LONG]) := by
  unfold calcSignalsSym signalCore
  rw [if_pos hw,
    if_pos ((longEntryCond_minmax c _ _ _ _ t st he hl).mpr hc)]

theorem calcSignalsSym_longExit_iff (c : StratCfg) (w : List ℚ) (t : ℚ)
    (he hl : ℕ) (st : SymState) (hst : st.bought = .LONG) :
    (calcSignalsSym c w t he hl st).2 = [Direction.EXIT] ↔
      (w.length = c.use_window ∧
        longExitCond c t (calculate_min_max_price st t)) := by
  have hb := calculate_min_max_price_bought st t
  have hne1 : ¬ longEntryCond c (ewm_last c.short_window w)
      (ewm_last c.mid_window w) (ewm_last c.long_window w) (w.getLastD 0)
      (calculate_min_max_price st t) he hl := by
    intro h
    have hx := h.2.2.2.1
    rw [hb, hst] at hx
    exact Phase.noConfusion hx
  have hne2 : ¬ shortEntryCond c (ewm_last c.short_window w)
      (ewm_last c.mid_window w) (ewm_last c.long_window w) (w.getLastD 0)
      (calculate_min_max_price st t) he hl := by
    intro h
    have hx := h.2.2.2.1
    rw [hb, hst] at hx
    exact Phase.noConfusion hx
  have hb4 : ¬ ((calculate_min_max_price st t).bought = .SHORT ∧
      shortExitCond c t (calculate_min_max_price st t)) := by
    intro h
    have hx := h.1
    rw [hb, hst] at hx
    exact Phase.noConfusion hx
  have hbL : (calculate_min_max_price st t).bought = .LONG := by rw [hb, hst]
  unfold calcSignalsSym signalCore
  by_cases hw : w.length = c.use_window
  · rw [if_pos hw, if_neg hne1, if_neg hne2]
    by_cases hc : longExitCond c t (calculate_min_max_price st t)
    · rw [if_pos ⟨hbL, hc⟩]
      simp [hw, hc]
    · rw [if_neg (fun h => hc h.2), if_neg hb4]
      simp [hc]
  · rw [if_neg hw]
    simp [hw]

theorem calcSignalsSym_longExit_effect (c : StratCfg) (w : List ℚ) (t : ℚ)
    (he hl : ℕ) (st : SymState) (hst : st.bought = .LONG)
    (hw : w.length = c.use_window)
    (hc : longExitCond c t (calculate_min_max_price st t)) :
    calcSignalsSym c w t he hl st = (⟨.OUT, 0, 0, 0⟩, [Direction.EXIT]) := by
  have hb := calculate_min_max_price_bought st t
  have hne1 : ¬ longEntryCond c (ewm_last c.short_window w)
      (ewm_last c.mid_window w) (ewm_last c.long_window w) (w.getLastD 0)
      (calculate_min_max_price st t) he hl := by
    intro h
    have hx := h.2.2.2.1
    rw [hb, hst] at hx
    exact Phase.noConfusion hx
  have hne2 : ¬ shortEntryCond c (ewm_last c.short_window w)
      (ewm_last c.mid_window w) (ewm_last c.long_window w) (w.getLastD 0)
      (calculate_min_max_price st t) he hl := by
    intro h
    have hx := h.2.2.2.1
    rw [hb, hst] at hx
    exact Phase.noConfusion hx
  have hbL : (calculate_min_max_price st t).bought = .LONG := by rw [hb, hst]
  unfold calcSignalsSym signalCore
  rw [if_pos hw, if_neg hne1, if_neg hne2, if_pos ⟨hbL, hc⟩]

/-- C1: within `calculate_signals` the per-symbol phase only ever makes
the transitions OUT→LONG, OUT→SHORT, LONG→OUT or SHORT→OUT (besides
staying put); leaving LONG or SHORT emits exactly one EXIT signal, and a
direct LONG→SHORT or SHORT→LONG transition is impossible — hence every
sequence of steps respects the state machine. -/
theorem calculate_signals_phase_transitions (c : StratCfg) (w : List ℚ)
    (t : ℚ) (he hl : ℕ) (st : SymState) :
    ((calcSignalsSym c w t he hl st).1.bought = st.bought ∨
      (st.bought = .OUT ∧
        ((calcSignalsSym c w t he hl st).1.bought = .LONG ∨
          (calcSignalsSym c w t he hl st).1.bought = .SHORT)) ∨
      ((st.bought = .LONG ∨ st.bought = .SHORT) ∧
        (calcSignalsSym c w t he hl st).1.bought = .OUT ∧
        (calcSignalsSym c w t he hl st).2 = [Direction.EXIT])) ∧
    ¬(st.bought = .LONG ∧
      (calcSignalsSym c w t he hl st).1.bought = .SHORT) ∧
    ¬(st.bought = .SHORT ∧
      (calcSignalsSym c w t he hl st).1.bought = .LONG) := by
  have hb := calculate_min_max_price_bought st t
  unfold calcSignalsSym signalCore
  split_ifs with hw h1 h2 h3 h4
  · have ho : st.bought = .OUT := by rw [← hb]; exact h1.2.2.2.1
    exact ⟨Or.inr (Or.inl ⟨ho, Or.inl rfl⟩),
      fun h => h.2,
      fun h => Phase.noConfusion (ho.symm.trans h.1)⟩
  · have ho : st.bought = .OUT := by rw [← hb]; exact h2.2.2.2.1
    exact ⟨Or.inr (Or.inl ⟨ho, Or.inr rfl⟩),
      fun h => Phase.noConfusion (ho.symm.trans h.1),
      fun h => h.2⟩
  · have ho : st.bought = .LONG := by rw [← hb]; exact h3.1
    exact ⟨Or.inr (Or.inr ⟨Or.inl ho, rfl, rfl⟩),
      fun h => h.2,
      fun h => Phase.noConfusion (ho.symm.trans h.1)⟩
  · have ho : st.bought = .SHORT := by rw [← hb]; exact h4.1
    exact ⟨Or.inr (Or.inr ⟨Or.inr ho, rfl, rfl⟩),
      fun h => Phase.noConfusion (ho.symm.trans h.1),
      fun h => h.2⟩
  · exact ⟨Or.inl hb,
      fun h => Phase.noConfusion ((hb.trans h.1).symm.trans h.2),
      fun h => Phase.noConfusion ((hb.trans h.1).symm.trans h.2)⟩
  · exact ⟨Or.inl hb,
      fun h => Phase.noConfusion ((hb.trans h.1).symm.trans h.2),
      fun h => Phase.noConfusion ((hb.trans h.1).symm.trans h.2)⟩

theorem calculate_signals_phase_transitions_witness :
    ¬((⟨.LONG, 1, 1, 1⟩ : SymState).bought = .LONG ∧
      (calcSignalsSym (mkBSStrategy 10 21 1 1 0 0 5 10 5) [1, 1, 1, 1]
          (1001/1000) 10 10 ⟨.LONG, 1, 1, 1⟩).1.bought = .SHORT) :=
  (calculate_signals_phase_transitions (mkBSStrategy 10 21 1 1 0 0 5 10 5)
    [1, 1, 1, 1] (1001/1000) 10 10 ⟨.LONG, 1, 1, 1⟩).2.1

/-- C2: with a full `use_window` close window, a LONG entry (exactly one
LONG SignalEvent) occurs iff the phase is OUT, the session gate holds and
the EMA ordering and gap thresholds hold against the last bar close; its
effect sets the phase to LONG and all three anchors to the tick price.
Scenario B: with spans 3/4/2 the window `scenarioBWindow` has EMAs
1.0010/1.0000/0.9990 and last close 1.0005; feeding tick 1.0005 from OUT
yields exactly one LONG event with all anchors 1.0005. -/
theorem long_entry_iff_and_effect (c : StratCfg) (w : List ℚ) (t : ℚ)
    (he hl : ℕ) (st : SymState) (hw : w.length = c.use_window) :
    ((calcSignalsSym c w t he hl st).2 = [Direction.LONG] ↔
      longEntryCond c (ewm_last c.short_window w) (ewm_last c.mid_window w)
        (ewm_last c.long_window w) (w.getLastD 0) st he hl) ∧
    (longEntryCond c (ewm_last c.short_window w) (ewm_last c.mid_window w)
        (ewm_last c.long_window w) (w.getLastD 0) st he hl →
      calcSignalsSym c w t he hl st =
        (⟨.LONG, t, t, t⟩, [Direction.LONG])) ∧
    (ewm_last 3 scenarioBWindow = 1001/1000 ∧
     ewm_last 4 scenarioBWindow = 1 ∧
     ewm_last 2 scenarioBWindow = 999/1000 ∧
     scenarioBWindow.getLastD 0 = 2001/2000 ∧
     calcSignalsSym (mkBSStrategy 3 4 2 1 0 0 5 10 5) scenarioBWindow
        (2001/2000) 10 10 ⟨.OUT, 0, 0, 0⟩ =
      (⟨.LONG, 2001/2000, 2001/2000, 2001/2000⟩, [Direction.LONG])) := by
  refine ⟨?_, ?_, by norm_num [ewm_last, scenarioBWindow],
    by norm_num [ewm_last, scenarioBWindow],
    by norm_num [ewm_last, scenarioBWindow],
    by norm_num [scenarioBWindow],
    by norm_num [calcSignalsSym, signalCore, calculate_min_max_price,
      longEntryCond, shortEntryCond, longExitCond, shortExitCond, ewm_last,
      mkBSStrategy, scenarioBWindow]⟩
  · rw [calcSignalsSym_long_iff]
    exact ⟨fun h => h.2, fun h => ⟨hw, h⟩⟩
  · exact fun hc => calcSignalsSym_long_effect c w t he hl st hw hc

theorem long_entry_iff_and_effect_witness :
    (calcSignalsSym (mkBSStrategy 3 4 2 1 0 0 5 10 5) scenarioBWindow
        (2001/2000) 10 10 ⟨.OUT, 0, 0, 0⟩).2 = [Direction.LONG] ↔
      longEntryCond (mkBSStrategy 3 4 2 1 0 0 5 10 5)
        (ewm_last (mkBSStrategy 3 4 2 1 0 0 5 10 5).short_window
          scenarioBWindow)
        (ewm_last (mkBSStrategy 3 4 2 1 0 0 5 10 5).mid_window
          scenarioBWindow)
        (ewm_last (mkBSStrategy 3 4 2 1 0 0 5 10 5).long_window
          scenarioBWindow)
        (scenarioBWindow.getLastD 0) ⟨.OUT, 0, 0, 0⟩ 10 10 :=
  (long_entry_iff_and_effect (mkBSStrategy 3 4 2 1 0 0 5 10 5)
    scenarioBWindow (2001/2000) 10 10 ⟨.OUT, 0, 0, 0⟩
    (by norm_num [scenarioBWindow, mkBSStrategy])).1

/-- C4: the entry decision is evaluated on the close of the most recent
finalized bar — it is invariant under changing the tick price — while
the recorded anchors come from, and the LONG-exit threshold comparisons
are made against, the latest tick price; with the Scenario-B window
(last close 1.0005) and tick 1.0007 the entry fires and records entry
price 1.0007 ≠ 1.0005. -/
theorem entry_price_vs_bar_close (c : StratCfg) (w : List ℚ) (t1 t2 : ℚ)
    (he hl : ℕ) (st : SymState) :
    (((calcSignalsSym c w t1 he hl st).2 = [Direction.LONG]) ↔
      ((calcSignalsSym c w t2 he hl st).2 = [Direction.LONG])) ∧
    (((calcSignalsSym c w t1 he hl st).2 = [Direction.SHORT]) ↔
      ((calcSignalsSym c w t2 he hl st).2 = [Direction.SHORT])) ∧
    ((calcSignalsSym c w t1 he hl st).2 = [Direction.LONG] →
      (calcSignalsSym c w t1 he hl st).1 = ⟨.LONG, t1, t1, t1⟩) ∧
    (st.bought = .LONG →
      ((calcSignalsSym c w t1 he hl st).2 = [Direction.EXIT] ↔
        (w.length = c.use_window ∧
          longExitCond c t1 (calculate_min_max_price st t1)))) ∧
    (calcSignalsSym (mkBSStrategy 3 4 2 1 0 0 5 10 5) scenarioBWindow
        (10007/10000) 10 10 ⟨.OUT, 0, 0, 0⟩ =
      (⟨.LONG, 10007/10000, 10007/10000, 10007/10000⟩, [Direction.LONG]) ∧
     scenarioBWindow.getLastD 0 = 2001/2000 ∧
     (10007/10000 : ℚ) ≠ 2001/2000) := by
  refine ⟨?_, ?_, ?_, ?_,
    by norm_num [calcSignalsSym, signalCore, calculate_min_max_price,
      longEntryCond, shortEntryCond, longExitCond, shortExitCond, ewm_last,
      mkBSStrategy, scenarioBWindow],
    by norm_num [scenarioBWindow],
    by norm_num⟩
  · rw [calcSignalsSym_long_iff, calcSignalsSym_long_iff]
  · rw [calcSignalsSym_short_iff, calcSignalsSym_short_iff]
  · intro h
    rcases (calcSignalsSym_long_iff c w t1 he hl st).mp h with ⟨hw, hc⟩
    rw [calcSignalsSym_long_effect c w t1 he hl st hw hc]
  · exact fun hst => calcSignalsSym_longExit_iff c w t1 he hl st hst

theorem entry_price_vs_bar_close_witness :
    (calcSignalsSym (mkBSStrategy 3 4 2 1 0 0 5 10 5) scenarioBWindow
        (10007/10000) 10 10 ⟨.OUT, 0, 0, 0⟩).1 =
      ⟨.LONG, 10007/10000, 10007/10000, 10007/10000⟩ :=
  (entry_price_vs_bar_close (mkBSStrategy 3 4 2 1 0 0 5 10 5)
    scenarioBWindow (10007/10000) 0 10 10 ⟨.OUT, 0, 0, 0⟩).2.2.1
    (by norm_num [calcSignalsSym, signalCore, calculate_min_max_price,
      longEntryCond, shortEntryCond, longExitCond, shortExitCond, ewm_last,
      mkBSStrategy, scenarioBWindow])

/-- C8: when the session gate fails (London hour < 8 or New York hour
≥ 17) no LONG or SHORT entry is ever emitted — any emitted event is an
EXIT; Scenario A: London hour 7, phase OUT, all LONG EMA/gap conditions
holding on `scenarioBWindow` yields zero SignalEvents and an unchanged
OUT state. -/
theorem session_gate_blocks_entries (c : StratCfg) (w : List ℚ) (t : ℚ)
    (he hl : ℕ) (st : SymState) (hgate : hl < 8 ∨ 17 ≤ he) :
    (∀ dv ∈ (calcSignalsSym c w t he hl st).2, dv = Direction.EXIT) ∧
    calcSignalsSym (mkBSStrategy 3 4 2 1 0 0 5 10 5) scenarioBWindow
        (2001/2000) 2 7 ⟨.OUT, 0, 0, 0⟩ = (⟨.OUT, 0, 0, 0⟩, []) := by
  constructor
  · unfold calcSignalsSym signalCore
    split_ifs with hw h1 h2 h3 h4 <;> intro dv hdv
    · rcases hgate with hg | hg
      · exact absurd h1.2.2.2.2.1 (by omega)
      · exact absurd h1.2.2.2.2.2.1 (by omega)
    · rcases hgate with hg | hg
      · exact absurd h2.2.2.2.2.1 (by omega)
      · exact absurd h2.2.2.2.2.2.1 (by omega)
    · simpa using hdv
    · simpa using hdv
    · simp at hdv
    · simp at hdv
  · norm_num [calcSignalsSym, signalCore, calculate_min_max_price,
      longEntryCond, shortEntryCond, longExitCond, shortExitCond, ewm_last,
      mkBSStrategy, scenarioBWindow]
    rfl

theorem session_gate_blocks_entries_witness :
    calcSignalsSym (mkBSStrategy 3 4 2 1 0 0 5 10 5) scenarioBWindow
        (2001/2000) 2 7 ⟨.OUT, 0, 0, 0⟩ = (⟨.OUT, 0, 0, 0⟩, []) :=
  (session_gate_blocks_entries (mkBSStrategy 3 4 2 1 0 0 5 10 5)
    scenarioBWindow (2001/2000) 2 7 ⟨.OUT, 0, 0, 0⟩
    (Or.inl (by decide))).2

theorem updateTicksSym_bars_append (dur : ℕ) (d : SymData) :
    ∃ s, (updateTicksSym dur d).1.bars = d.bars ++ s := by
  rcases hp : d.pending with _ | ⟨t, rest⟩
  · exact ⟨[], by simp [updateTicksSym, hp]⟩
  · exact ⟨(feedTick dur d.currentBar t).2.toList,
      by simp [updateTicksSym, hp]⟩

theorem updateTicksSym_bars_le (dur : ℕ) (d : SymData) :
    d.bars.length ≤ (updateTicksSym dur d).1.bars.length := by
  obtain ⟨s, hs⟩ := updateTicksSym_bars_append dur d
  rw [hs, List.length_append]
  omega

theorem updateTicksSym_latest_ne (dur : ℕ) (d : SymData)
    (h : d.latest ≠ [] ∨ d.pending ≠ []) :
    (updateTicksSym dur d).1.latest ≠ [] := by
  rcases hp : d.pending with _ | ⟨t, rest⟩
  · have heq : (updateTicksSym dur d).1.latest = d.latest := by
      simp [updateTicksSym, hp]
    rw [heq]
    rcases h with h | h
    · exact h
    · exact absurd hp h
  · simp [updateTicksSym, hp]

theorem lastSlice_full (n : ℕ) (l : List α) (h0 : 0 < n)
    (hle : n ≤ l.length) : (lastSlice n l).length = n := by
  unfold lastSlice
  rw [if_neg (by omega), List.length_drop]
  omega

theorem lastSlice_spec (n : ℕ) (l : List α)
    (hn : (lastSlice n l).length = n) (hne : lastSlice n l ≠ []) :
    0 < n ∧ n ≤ l.length := by
  unfold lastSlice at hn hne
  by_cases h0 : n = 0
  · rw [if_pos h0] at hn hne
    subst h0
    exact absurd (List.length_eq_zero.mp hn) hne
  · rw [if_neg h0, List.length_drop] at hn
    omega

theorem lastSlice_short (n : ℕ) (l : List α)
    (h : (lastSlice n l).length < n) : l.length < n := by
  unfold lastSlice at h
  by_cases h0 : n = 0
  · omega
  · rw [if_neg h0, List.length_drop] at h
    omega

theorem longEntryCond_window_ne (c : StratCfg) (w : List ℚ) (st : SymState)
    (he hl : ℕ)
    (h : longEntryCond c (ewm_last c.short_window w) (ewm_last c.mid_window w)
      (ewm_last c.long_window w) (w.getLastD 0) st he hl) : w ≠ [] := by
  intro hw
  subst hw
  exact absurd h.1 (by norm_num [ewm_last])

theorem shortEntryCond_window_ne (c : StratCfg) (w : List ℚ) (st : SymState)
    (he hl : ℕ)
    (h : shortEntryCond c (ewm_last c.short_window w) (ewm_last c.mid_window w)
      (ewm_last c.long_window w) (w.getLastD 0) st he hl) : w ≠ [] := by
  intro hw
  subst hw
  exact absurd h.1 (by norm_num [ewm_last])

theorem calcSignalsSym_bought_change (c : StratCfg) (w : List ℚ) (t : ℚ)
    (he hl : ℕ) (st : SymState)
    (h : (calcSignalsSym c w t he hl st).1.bought ≠ st.bought) :
    (calcSignalsSym c w t he hl st).1.bought = .OUT ∨
      (w.length = c.use_window ∧ w ≠ []) := by
  have hb := calculate_min_max_price_bought st t
  unfold calcSignalsSym signalCore at h ⊢
  split_ifs at h ⊢ with hw h1 h2 h3 h4
  · exact Or.inr ⟨hw, longEntryCond_window_ne c w _ he hl
      ((longEntryCond_minmax c _ _ _ _ t st he hl).mpr
        ((longEntryCond_minmax c _ _ _ _ t st he hl).mp h1))⟩
  · exact Or.inr ⟨hw, shortEntryCond_window_ne c w _ he hl
      ((shortEntryCond_minmax c _ _ _ _ t st he hl).mpr
        ((shortEntryCond_minmax c _ _ _ _ t st he hl).mp h2))⟩
  · exact Or.inl rfl
  · exact Or.inl rfl
  · exact absurd hb h
  · exact absurd hb h

theorem calcSignalsSym_po_change (c : StratCfg) (w : List ℚ) (t : ℚ)
    (he hl : ℕ) (st : SymState)
    (h : (calcSignalsSym c w t he hl st).1.po_price ≠ st.po_price) :
    (calcSignalsSym c w t he hl st).1.po_price = 0 ∨
      (w.length = c.use_window ∧ w ≠ []) := by
  have hp := calculate_min_max_price_po st t
  unfold calcSignalsSym signalCore at h ⊢
  split_ifs at h ⊢ with hw h1 h2 h3 h4
  · exact Or.inr ⟨hw, longEntryCond_window_ne c w _ he hl h1⟩
  · exact Or.inr ⟨hw, shortEntryCond_window_ne c w _ he hl h2⟩
  · exact Or.inl rfl
  · exact Or.inl rfl
  · exact absurd hp h
  · exact absurd hp h

theorem symStep0_some (dur : ℕ) (c : StratCfg) (tzh : ℕ → ℕ × ℕ)
    (p : SymData × SymState) (d : SymData) (st : SymState)
    (evs : List Direction)
    (h : symStep0 dur c tzh p = some (d, st, evs)) :
    d = (updateTicksSym dur p.1).1 ∧
    ∃ t, d.latest.getLast? = some t ∧
      calcSignalsSym c
        (lastSlice c.use_window
          ((updateTicksSym dur p.1).1.bars.map Bar.close))
        t.tick (tzh t.time).1 (tzh t.time).2 p.2 = (st, evs) := by
  simp only [symStep0] at h
  rcases hlast : (updateTicksSym dur p.1).1.latest.getLast? with _ | t
  · rw [hlast] at h
    cases h
  · rw [hlast] at h
    simp only [Option.some.injEq, Prod.mk.injEq] at h
    obtain ⟨hd, hst, hevs⟩ := h
    refine ⟨hd.symm, t, ?_, ?_⟩
    · rw [← hd]
      exact hlast
    · exact Prod.ext hst hevs

theorem reachSym_inv (dur : ℕ) (c : StratCfg) (tzh : ℕ → ℕ × ℕ)
    (p : SymData × SymState) (h : ReachSym dur c tzh p) :
    SymInv c.use_window p := by
  induction h with
  | init csv hne =>
    exact ⟨fun hb => absurd rfl hb, fun hp => absurd rfl hp, Or.inr hne⟩
  | step hr hstep ih =>
    rename_i p d st evs
    obtain ⟨hd, t, hlast, hcalc⟩ := symStep0_some dur c tzh p d st evs hstep
    subst hd
    have hble := updateTicksSym_bars_le dur p.1
    have hst1 : (calcSignalsSym c
        (lastSlice c.use_window
          ((updateTicksSym dur p.1).1.bars.map Bar.close))
        t.tick (tzh t.time).1 (tzh t.time).2 p.2).1 = st :=
      congrArg Prod.fst hcalc
    have hwfull : ∀ hwin : (lastSlice c.use_window
          ((updateTicksSym dur p.1).1.bars.map Bar.close)).length =
            c.use_window ∧
          lastSlice c.use_window
            ((updateTicksSym dur p.1).1.bars.map Bar.close) ≠ [],
        0 < c.use_window ∧
          c.use_window ≤ (updateTicksSym dur p.1).1.bars.length := by
      intro hwin
      obtain ⟨h0, hle⟩ := lastSlice_spec _ _ hwin.1 hwin.2
      rw [List.length_map] at hle
      exact ⟨h0, hle⟩
    refine ⟨?_, ?_, Or.inl (fun hnil => by rw [hnil] at hlast; cases hlast)⟩
    · intro hb
      by_cases hchg : st.bought = p.2.bought
      · obtain ⟨h0, hle⟩ := ih.1 (by rw [← hchg]; exact hb)
        exact ⟨h0, le_trans hle hble⟩
      · rcases calcSignalsSym_bought_change c _ t.tick _ _ p.2
            (by rw [hst1]; exact hchg) with hout | hwin
        · rw [hst1] at hout
          exact absurd hout hb
        · exact hwfull hwin
    · intro hpo
      by_cases hchg : st.po_price = p.2.po_price
      · obtain ⟨h0, hle⟩ := ih.2.1 (by rw [← hchg]; exact hpo)
        exact ⟨h0, le_trans hle hble⟩
      · rcases calcSignalsSym_po_change c _ t.tick _ _ p.2
            (by rw [hst1]; exact hchg) with hzero | hwin
        · rw [hst1] at hzero
          exact absurd hzero hpo
        · exact hwfull hwin

/-- C3: at every step of a run (any reachable per-symbol state), a LONG
exit — an EXIT SignalEvent emitted while the phase is LONG — occurs iff
the phase is LONG and at least one of take-profit, trailing-giveback or
plain stop-loss holds against the latest tick price (with the running
max/min already updated by `_calculate_min_max_price`); its effect resets
the phase to OUT and all anchors to 0.  Scenario C: phase LONG, entry
price 1.0000, takeProfit 0.0010, tick 1.0010 yields exactly one EXIT. -/
theorem long_exit_iff_and_effect (dur : ℕ) (c : StratCfg)
    (tzh : ℕ → ℕ × ℕ) (p : SymData × SymState) (d : SymData)
    (st : SymState) (evs : List Direction) (t : Tick)
    (hr : ReachSym dur c tzh p)
    (hstep : symStep0 dur c tzh p = some (d, st, evs))
    (ht : d.latest.getLast? = some t) :
    (((p.2.bought = .LONG ∧ evs = [Direction.EXIT]) ↔
       (p.2.bought = .LONG ∧
         longExitCond c t.tick (calculate_min_max_price p.2 t.tick))) ∧
     (p.2.bought = .LONG ∧
         longExitCond c t.tick (calculate_min_max_price p.2 t.tick) →
       st = ⟨.OUT, 0, 0, 0⟩ ∧ evs = [Direction.EXIT])) ∧
    calcSignalsSym (mkBSStrategy 10 21 1 1 0 0 5 10 5) [1, 1, 1, 1]
        (1001/1000) 10 10 ⟨.LONG, 1, 1, 1⟩ =
      (⟨.OUT, 0, 0, 0⟩, [Direction.EXIT]) := by
  have hinv := reachSym_inv dur c tzh p hr
  obtain ⟨hd, t2, ht2, hcalc⟩ := symStep0_some dur c tzh p d st evs hstep
  subst hd
  have htt : t2 = t := Option.some.inj (ht2.symm.trans ht)
  subst htt
  have hwfull : p.2.bought = .LONG →
      (lastSlice c.use_window
        ((updateTicksSym dur p.1).1.bars.map Bar.close)).length =
        c.use_window := by
    intro hL
    obtain ⟨h0, hle⟩ := hinv.1 (by rw [hL]; exact fun hh => Phase.noConfusion hh)
    refine lastSlice_full _ _ h0 ?_
    rw [List.length_map]
    exact le_trans hle (updateTicksSym_bars_le dur p.1)
  have hevs : (calcSignalsSym c
      (lastSlice c.use_window
        ((updateTicksSym dur p.1).1.bars.map Bar.close))
      t2.tick (tzh t2.time).1 (tzh t2.time).2 p.2).2 = evs :=
    congrArg Prod.snd hcalc
  refine ⟨⟨?_, ?_⟩, ?_⟩
  · constructor
    · rintro ⟨hL, hE⟩
      refine ⟨hL, ?_⟩
      have := (calcSignalsSym_longExit_iff c _ t2.tick _ _ p.2 hL).mp
        (by rw [hevs]; exact hE)
      exact this.2
    · rintro ⟨hL, hc⟩
      refine ⟨hL, ?_⟩
      rw [← hevs]
      exact (calcSignalsSym_longExit_iff c _ t2.tick _ _ p.2 hL).mpr
        ⟨hwfull hL, hc⟩
  · rintro ⟨hL, hc⟩
    have heff := calcSignalsSym_longExit_effect c _ t2.tick
      (tzh t2.time).1 (tzh t2.time).2 p.2 hL (hwfull hL) hc
    rw [heff] at hcalc
    exact ⟨(Prod.mk.injEq _ _ _ _).mp hcalc.symm |>.1,
      (Prod.mk.injEq _ _ _ _).mp hcalc.symm |>.2⟩
  · norm_num [calcSignalsSym, signalCore, calculate_min_max_price,
      longEntryCond, shortEntryCond, longExitCond, shortExitCond, ewm_last,
      mkBSStrategy, lastSlice]

theorem long_exit_iff_and_effect_witness :
    calcSignalsSym (mkBSStrategy 10 21 1 1 0 0 5 10 5) [1, 1, 1, 1]
        (1001/1000) 10 10 ⟨.LONG, 1, 1, 1⟩ =
      (⟨.OUT, 0, 0, 0⟩, [Direction.EXIT]) :=
  (long_exit_iff_and_effect 300 (mkBSStrategy 10 21 1 1 0 0 5 10 5)
    (fun _ => (10, 10)) (initSymData [⟨0, 1⟩], initSymState)
    ⟨[], [⟨0, 1⟩], [⟨0, 1⟩], []⟩ initSymState [] ⟨0, 1⟩
    (ReachSym.init [⟨0, 1⟩] (by simp))
    (by norm_num [symStep0, updateTicksSym, feedTick, initSymData,
      initSymState, calcSignalsSym, calculate_min_max_price, lastSlice,
      mkBSStrategy, bucket])
    rfl).2

/-- C9: at every step of a run (any reachable per-symbol state), if the
close window after the data update has fewer than `use_window` entries
the step is a silent no-op for that symbol: the step succeeds (no
error), emits no SignalEvent, and leaves the phase and all anchor prices
unchanged. -/
theorem insufficient_history_silent_noop (dur : ℕ) (c : StratCfg)
    (tzh : ℕ → ℕ × ℕ) (p : SymData × SymState)
    (hr : ReachSym dur c tzh p)
    (hshort : (lastSlice c.use_window
        ((updateTicksSym dur p.1).1.bars.map Bar.close)).length <
      c.use_window) :
    symStep0 dur c tzh p = some ((updateTicksSym dur p.1).1, p.2, []) := by
  have hinv := reachSym_inv dur c tzh p hr
  have hlat : (updateTicksSym dur p.1).1.latest ≠ [] :=
    updateTicksSym_latest_ne dur p.1 hinv.2.2
  obtain ⟨t, ht⟩ :=
    Option.isSome_iff_exists.mp (List.getLast?_isSome.mpr hlat)
  have hLlt : (updateTicksSym dur p.1).1.bars.length < c.use_window := by
    have hx := lastSlice_short c.use_window
      ((updateTicksSym dur p.1).1.bars.map Bar.close) hshort
    rwa [List.length_map] at hx
  have hpo : p.2.po_price = 0 := by
    by_contra hne
    have h2 := (hinv.2.1 hne).2
    have hle := updateTicksSym_bars_le dur p.1
    omega
  have hcalc : calcSignalsSym c
      (lastSlice c.use_window
        ((updateTicksSym dur p.1).1.bars.map Bar.close)) t.tick
      (tzh t.time).1 (tzh t.time).2 p.2 = (p.2, []) := by
    unfold calcSignalsSym
    rw [if_neg (Nat.ne_of_lt hshort),
      calculate_min_max_price_of_po_zero p.2 t.tick hpo]
  simp only [symStep0, ht]
  rw [hcalc]

theorem insufficient_history_silent_noop_witness :
    symStep0 300 (mkBSStrategy 10 21 50 1 0 0 5 10 5) (fun _ => (10, 10))
        (initSymData [⟨0, 1⟩, ⟨300, 2⟩], initSymState) =
      some ((updateTicksSym 300 (initSymData [⟨0, 1⟩, ⟨300, 2⟩])).1,
        initSymState, []) :=
  insufficient_history_silent_noop 300 (mkBSStrategy 10 21 50 1 0 0 5 10 5)
    (fun _ => (10, 10)) (initSymData [⟨0, 1⟩, ⟨300, 2⟩], initSymState)
    (ReachSym.init [⟨0, 1⟩, ⟨300, 2⟩] (by simp))
    (by norm_num [updateTicksSym, feedTick, initSymData, lastSlice,
      mkBSStrategy, bucket])

/-- C5 counterexample: with `long_window = 1` (claimed capacity
4 × 1 = 4) a six-tick run stores five finalized bars — the backing bar
list exceeds `4 × longSpan`; nothing is ever evicted. -/
theorem bar_history_unbounded_counterexample :
    (mkBSStrategy 10 21 1 1 0 0 5 10 5).use_window <
      (runDataN 300 6 (initSymData
        [⟨0, 1⟩, ⟨300, 2⟩, ⟨600, 3⟩, ⟨900, 4⟩, ⟨1200, 5⟩,
         ⟨1500, 6⟩])).bars.length := by
  norm_num [runDataN, updateTicksSym, feedTick, ohlc, initSymData, bucket,
    mkBSStrategy]

/-- C5 amended: the backing per-symbol bar history is append-only and
unbounded — each update appends and never evicts — while the read path
(`get_latest_bars_values`, i.e. `lastSlice`) truncates to the most recent
`min n (stored)` bars, so the strategy-visible window never exceeds
`use_window`. -/
theorem bar_history_append_only_truncated_read (dur n : ℕ) (d : SymData)
    (hn : 0 < n) :
    (∃ s, (updateTicksSym dur d).1.bars = d.bars ++ s) ∧
    (lastSlice n (d.bars.map Bar.close)).length = min n d.bars.length := by
  refine ⟨updateTicksSym_bars_append dur d, ?_⟩
  unfold lastSlice
  rw [if_neg (by omega), List.length_drop, List.length_map]
  omega

theorem bar_history_append_only_truncated_read_witness :
    (∃ s, (updateTicksSym 300 (initSymData [⟨0, 1⟩])).1.bars =
      (initSymData [⟨0, 1⟩]).bars ++ s) ∧
    (lastSlice 4 ((initSymData [⟨0, 1⟩]).bars.map Bar.close)).length =
      min 4 (initSymData [⟨0, 1⟩]).bars.length :=
  bar_history_append_only_truncated_read 300 4 (initSymData [⟨0, 1⟩])
    (by decide)

/-- C6 counterexample: with `short_window = 21 ≥ mid_window = 10` the
constructor succeeds — it returns the strategy record with the scaled
thresholds (there is no validation and no ConfigurationError) — and a
full driver step still executes, consuming the tick. -/
theorem constructor_never_validates_counterexample :
    mkBSStrategy 21 10 50 1 0 0 5 10 5 =
      ⟨21, 10, 50, 200, 1/10000, 0, 0, 5/10000, 10/10000, 5/10000⟩ ∧
    stepIter 300 (mkBSStrategy 21 10 50 1 0 0 5 10 5) (fun _ => (10, 10)) 1
        (initSymData [⟨0, 1⟩], initSymState) =
      some (⟨[], [⟨0, 1⟩], [⟨0, 1⟩], []⟩, initSymState) := by
  constructor
  · norm_num [mkBSStrategy]
  · norm_num [stepIter, symStep0, updateTicksSym, feedTick, initSymData,
      initSymState, calcSignalsSym, calculate_min_max_price, lastSlice,
      mkBSStrategy, bucket]

/-- C6 amended: construction never raises for any parameter values — in
particular with shortSpan ≥ midSpan it returns the strategy with
`use_window = 4 × long_window` — and the first driver step from a
nonempty stream still executes normally. -/
theorem constructor_accepts_invalid_spans (short_w mid_w long_w : ℕ)
    (md mdp pl sl tp ts : ℚ) (hmis : mid_w ≤ short_w) (dur : ℕ)
    (csv : List Tick) (hne : csv ≠ []) (tzh : ℕ → ℕ × ℕ) :
    (mkBSStrategy short_w mid_w long_w md mdp pl sl tp ts).use_window =
      4 * long_w ∧
    (symStep0 dur (mkBSStrategy short_w mid_w long_w md mdp pl sl tp ts)
      tzh (initSymData csv, initSymState)).isSome = true := by
  refine ⟨rfl, ?_⟩
  have hlat : (updateTicksSym dur (initSymData csv)).1.latest ≠ [] :=
    updateTicksSym_latest_ne dur (initSymData csv) (Or.inr hne)
  obtain ⟨t, ht⟩ :=
    Option.isSome_iff_exists.mp (List.getLast?_isSome.mpr hlat)
  simp only [symStep0, ht, Option.isSome_some]

theorem constructor_accepts_invalid_spans_witness :
    (mkBSStrategy 21 10 50 1 0 0 5 10 5).use_window = 4 * 50 ∧
    (symStep0 300 (mkBSStrategy 21 10 50 1 0 0 5 10 5) (fun _ => (10, 10))
      (initSymData [⟨0, 1⟩], initSymState)).isSome = true :=
  constructor_accepts_invalid_spans 21 10 50 1 0 0 5 10 5 (by decide) 300
    [⟨0, 1⟩] (by simp) (fun _ => (10, 10))

/-- C10: when some symbol's tick source is exhausted, `update_ticks`
clears `continue_backtest`, still emits the step-pulse MarketEvent, and
every symbol (exhausted or not) is still processed by its own
`updateTicksSym` — one symbol's exhaustion does not abort the others;
normal end-of-data raises no exception: the caught `StopIteration`
becomes the cleared flag and the function is total. -/
theorem exhaustion_completes_step (dur : ℕ) (dh : DH) (i : ℕ)
    (d : SymData) (hi : dh.symdata[i]? = some d) (hex : d.pending = []) :
    (update_ticks dur dh).1.continue_backtest = false ∧
    (update_ticks dur dh).2 = [MEvent.market] ∧
    ∀ j : ℕ, (update_ticks dur dh).1.symdata[j]? =
      (dh.symdata[j]?).map fun x => (updateTicksSym dur x).1 := by
  refine ⟨?_, rfl, ?_⟩
  · have hmem : d ∈ dh.symdata := by
      obtain ⟨hlt, hgl⟩ := List.getElem?_eq_some_iff.mp hi
      exact hgl ▸ List.getElem_mem hlt
    have hall : dh.symdata.all (fun x => (updateTicksSym dur x).2) =
        false := by
      rw [List.all_eq_false]
      refine ⟨d, hmem, ?_⟩
      simp [updateTicksSym, hex]
    simp [update_ticks, hall]
  · intro j
    simp [update_ticks, List.getElem?_map]

theorem exhaustion_completes_step_witness :
    (update_ticks 300 ⟨[⟨[], [], [], []⟩, ⟨[⟨0, 1⟩], [], [], []⟩],
        true⟩).1.continue_backtest = false :=
  (exhaustion_completes_step 300
    ⟨[⟨[], [], [], []⟩, ⟨[⟨0, 1⟩], [], [], []⟩], true⟩ 0 ⟨[], [], [], []⟩
    rfl rfl).1

theorem foldl_min_all_eq {B : ℕ} (l : List ℕ) (h : ∀ x ∈ l, x = B) :
    l.foldl min B = B := by
  induction l with
  | nil => rfl
  | cons a as ih =>
    have ha : a = B := h a (List.mem_cons_self a as)
    rw [List.foldl_cons, ha, min_self]
    exact ih (fun x hx => h x (List.mem_cons_of_mem a hx))

theorem foldl_max_all_eq {B : ℕ} (l : List ℕ) (h : ∀ x ∈ l, x = B) :
    l.foldl max B = B := by
  induction l with
  | nil => rfl
  | cons a as ih =>
    have ha : a = B := h a (List.mem_cons_self a as)
    rw [List.foldl_cons, ha, max_self]
    exact ih (fun x hx => h x (List.mem_cons_of_mem a hx))

theorem foldl_min_all_ne {B : ℕ} :
    ∀ (l : List ℕ) (s : ℕ), l ≠ [] → (∀ x ∈ l, x = B) →
      l.foldl min s = min s B := by
  intro l
  induction l with
  | nil => intro s hne _; exact absurd rfl hne
  | cons a as ih =>
    intro s _ h
    have ha : a = B := h a (List.mem_cons_self a as)
    by_cases has : as = []
    · subst has
      rw [List.foldl_cons, ha]
      rfl
    · rw [List.foldl_cons, ha,
        ih (min s B) has (fun x hx => h x (List.mem_cons_of_mem a hx)),
        min_assoc, min_self]

theorem foldl_max_all_ne {B : ℕ} :
    ∀ (l : List ℕ) (s : ℕ), l ≠ [] → (∀ x ∈ l, x = B) →
      l.foldl max s = max s B := by
  intro l
  induction l with
  | nil => intro s hne _; exact absurd rfl hne
  | cons a as ih =>
    intro s _ h
    have ha : a = B := h a (List.mem_cons_self a as)
    by_cases has : as = []
    · subst has
      rw [List.foldl_cons, ha]
      rfl
    · rw [List.foldl_cons, ha,
        ih (max s B) has (fun x hx => h x (List.mem_cons_of_mem a hx)),
        max_assoc, max_self]

theorem feedTick_same_bucket (dur : ℕ) (cb : List Tick) (t : Tick) (B : ℕ)
    (hB : ∀ x ∈ cb, bucket dur x.time = B) (ht : bucket dur t.time = B) :
    feedTick dur cb t = (cb ++ [t], none) := by
  have hall : ∀ x ∈ (cb ++ [t]).map (fun x => bucket dur x.time), x = B := by
    intro x hx
    rw [List.mem_map] at hx
    obtain ⟨y, hy, rfl⟩ := hx
    rcases List.mem_append.mp hy with hy | hy
    · exact hB y hy
    · rw [List.mem_singleton.mp hy]
      exact ht
  simp only [feedTick]
  rw [ht, foldl_min_all_eq _ hall, foldl_max_all_eq _ hall, if_pos rfl]

theorem feedTick_new_bucket (dur : ℕ) (cb : List Tick) (t : Tick) (B : ℕ)
    (hcb : cb ≠ []) (hB : ∀ x ∈ cb, bucket dur x.time = B)
    (ht : B < bucket dur t.time) :
    feedTick dur cb t = ([t], some (ohlc cb)) := by
  have hmapne : cb.map (fun x => bucket dur x.time) ≠ [] := by
    simp [hcb]
  have hmapB : ∀ x ∈ cb.map (fun x => bucket dur x.time), x = B := by
    intro x hx
    rw [List.mem_map] at hx
    obtain ⟨y, hy, rfl⟩ := hx
    exact hB y hy
  have hb1 : ((cb ++ [t]).map fun x => bucket dur x.time).foldl min
      (bucket dur t.time) = B := by
    rw [List.map_append, List.foldl_append,
      foldl_min_all_ne _ _ hmapne hmapB, List.map_cons, List.map_nil,
      List.foldl_cons, List.foldl_nil, min_eq_right (le_of_lt ht),
      min_eq_left (le_of_lt ht)]
  have hb2 : ((cb ++ [t]).map fun x => bucket dur x.time).foldl max
      (bucket dur t.time) = bucket dur t.time := by
    rw [List.map_append, List.foldl_append,
      foldl_max_all_ne _ _ hmapne hmapB, List.map_cons, List.map_nil,
      List.foldl_cons, List.foldl_nil, max_eq_left (le_of_lt ht),
      max_self]
  have hfil : (cb ++ [t]).filter (fun x => bucket dur x.time = B) = cb := by
    rw [List.filter_append]
    have h1 : cb.filter (fun x => bucket dur x.time = B) = cb :=
      List.filter_eq_self.mpr (fun a ha => by simp [hB a ha])
    have h2 : [t].filter (fun x => bucket dur x.time = B) = [] := by
      simp [List.filter_singleton, Ne.symm (Nat.ne_of_lt ht)]
    rw [h1, h2, List.append_nil]
  simp only [feedTick]
  rw [hb1, hb2, if_neg (Nat.ne_of_lt ht), hfil]

theorem getLastD_mem {α : Type} {l : List α} (hne : l ≠ []) (d : α) :
    l.getLastD d ∈ l := by
  obtain ⟨a, ha⟩ :=
    Option.isSome_iff_exists.mp (List.getLast?_isSome.mpr hne)
  rw [List.getLastD_eq_getLast?, ha]
  exact List.mem_of_mem_getLast? ha

theorem time_le_getLastD {l : List Tick}
    (hs : l.Pairwise (fun a b => a.time < b.time)) {x : Tick} (hx : x ∈ l)
    (d : Tick) : x.time ≤ (l.getLastD d).time := by
  induction l using List.reverseRecOn with
  | nil => cases hx
  | append_singleton as a ih =>
    rw [List.getLastD_eq_getLast?, List.getLast?_concat]
    rcases List.mem_append.mp hx with hx | hx
    · exact le_of_lt
        ((List.pairwise_append.mp hs).2.2 x hx a (List.mem_singleton_self a))
    · rw [List.mem_singleton.mp hx]
      exact le_refl _

theorem feedAll_currentBar (dur : ℕ) (d : Tick) :
    ∀ pre : List Tick, pre.Pairwise (fun a b => a.time < b.time) →
      pre ≠ [] →
      (feedAll dur [] pre).2 = pre.filter
        (fun x => bucket dur x.time =
          bucket dur ((pre.getLastD d).time)) := by
  intro pre
  induction pre using List.reverseRecOn with
  | nil => intro _ h; exact absurd rfl h
  | append_singleton l t ih =>
    intro hs _
    have hstep : (feedAll dur [] (l ++ [t])).2 =
        (feedTick dur (feedAll dur [] l).2 t).1 := by
      simp [feedAll, List.foldl_append]
    by_cases hl : l = []
    · subst hl
      rw [hstep]
      have hempty : (feedAll dur [] ([] : List Tick)).2 = [] := rfl
      rw [hempty, feedTick_same_bucket dur [] t (bucket dur t.time)
        (fun x hx => absurd hx (List.not_mem_nil x)) rfl]
      simp [List.getLastD_eq_getLast?]
    · have hsl : l.Pairwise (fun a b => a.time < b.time) :=
        (List.pairwise_append.mp hs).1
      have hlast := ih hsl hl
      have hlt : ∀ x ∈ l, x.time < t.time :=
        fun x hx =>
          (List.pairwise_append.mp hs).2.2 x hx t (List.mem_singleton_self t)
      have hBle : bucket dur ((l.getLastD d).time) ≤ bucket dur t.time :=
        Nat.div_le_div_right (le_of_lt (hlt _ (getLastD_mem hl d)))
      have hmono : ∀ x ∈ l,
          bucket dur x.time ≤ bucket dur ((l.getLastD d).time) :=
        fun x hx => Nat.div_le_div_right (time_le_getLastD hsl hx d)
      have hcbB : ∀ x ∈ (feedAll dur [] l).2,
          bucket dur x.time = bucket dur ((l.getLastD d).time) := by
        intro x hx
        rw [hlast] at hx
        exact of_decide_eq_true (List.mem_filter.mp hx).2
      have hcbne : (feedAll dur [] l).2 ≠ [] := by
        rw [hlast]
        exact List.ne_nil_of_mem
          (List.mem_filter.mpr ⟨getLastD_mem hl d, by simp⟩)
      rw [hstep]
      by_cases hb : bucket dur t.time = bucket dur ((l.getLastD d).time)
      · rw [feedTick_same_bucket dur _ t _ hcbB hb]
        simp only [List.getLastD_eq_getLast?, List.getLast?_concat,
          Option.getD_some, List.filter_append]
        rw [hb, hlast]
        simp [hb]
      · have hblt : bucket dur ((l.getLastD d).time) < bucket dur t.time :=
          lt_of_le_of_ne hBle (fun he => hb he.symm)
        rw [feedTick_new_bucket dur _ t _ hcbne hcbB hblt]
        simp only [List.getLastD_eq_getLast?, List.getLast?_concat,
          Option.getD_some, List.filter_append]
        have hfl : l.filter
            (fun x => bucket dur x.time = bucket dur t.time) = [] := by
          rw [List.filter_eq_nil_iff]
          intro a ha
          have h1 := hmono a ha
          simp only [decide_eq_true_eq]
          omega
        rw [hfl]
        simp

theorem foldl_max_bound (l : List ℚ) (s : ℚ) :
    s ≤ l.foldl max s ∧ ∀ q ∈ l, q ≤ l.foldl max s := by
  induction l generalizing s with
  | nil => exact ⟨le_refl s, fun q hq => absurd hq (List.not_mem_nil q)⟩
  | cons a as ih =>
    rw [List.foldl_cons]
    refine ⟨le_trans (le_max_left s a) (ih (max s a)).1, ?_⟩
    intro q hq
    rcases List.mem_cons.mp hq with rfl | hq
    · exact le_trans (le_max_right s q) (ih (max s q)).1
    · exact (ih (max s a)).2 q hq

theorem foldl_min_bound (l : List ℚ) (s : ℚ) :
    l.foldl min s ≤ s ∧ ∀ q ∈ l, l.foldl min s ≤ q := by
  induction l generalizing s with
  | nil => exact ⟨le_refl s, fun q hq => absurd hq (List.not_mem_nil q)⟩
  | cons a as ih =>
    rw [List.foldl_cons]
    refine ⟨le_trans (ih (min s a)).1 (min_le_left s a), ?_⟩
    intro q hq
    rcases List.mem_cons.mp hq with rfl | hq
    · exact le_trans (ih (min s q)).1 (min_le_right s q)
    · exact (ih (min s a)).2 q hq

theorem foldl_max_mem (l : List ℚ) (s : ℚ) :
    l.foldl max s = s ∨ l.foldl max s ∈ l := by
  induction l generalizing s with
  | nil => exact Or.inl rfl
  | cons a as ih =>
    rw [List.foldl_cons]
    rcases ih (max s a) with h | h
    · rcases le_or_lt a s with hle | hlt
      · exact Or.inl (by rw [h, max_eq_left hle])
      · refine Or.inr ?_
        rw [h, max_eq_right (le_of_lt hlt)]
        exact List.mem_cons_self a as
    · exact Or.inr (List.mem_cons_of_mem a h)

theorem foldl_min_mem (l : List ℚ) (s : ℚ) :
    l.foldl min s = s ∨ l.foldl min s ∈ l := by
  induction l generalizing s with
  | nil => exact Or.inl rfl
  | cons a as ih =>
    rw [List.foldl_cons]
    rcases ih (min s a) with h | h
    · rcases le_or_lt s a with hle | hlt
      · exact Or.inl (by rw [h, min_eq_left hle])
      · refine Or.inr ?_
        rw [h, min_eq_right (le_of_lt hlt)]
        exact List.mem_cons_self a as
    · exact Or.inr (List.mem_cons_of_mem a h)

theorem ohlc_fields (ts : List Tick) (hne : ts ≠ []) (d : Tick) :
    (ohlc ts).«open» = (ts.headD d).tick ∧
    ((ohlc ts).high ∈ ts.map Tick.tick ∧
      ∀ q ∈ ts.map Tick.tick, q ≤ (ohlc ts).high) ∧
    ((ohlc ts).low ∈ ts.map Tick.tick ∧
      ∀ q ∈ ts.map Tick.tick, (ohlc ts).low ≤ q) ∧
    (ohlc ts).close = (ts.getLastD d).tick := by
  rcases ts with _ | ⟨t, rest⟩
  · exact absurd rfl hne
  · refine ⟨rfl, ⟨?_, ?_⟩, ⟨?_, ?_⟩, ?_⟩
    · show rest.foldl (fun a x => max a x.tick) t.tick ∈
        (t :: rest).map Tick.tick
      rw [← List.foldl_map, List.map_cons]
      rcases foldl_max_mem (rest.map Tick.tick) t.tick with h | h
      · rw [h]
        exact List.mem_cons_self _ _
      · exact List.mem_cons_of_mem _ h
    · intro q hq
      show q ≤ rest.foldl (fun a x => max a x.tick) t.tick
      rw [← List.foldl_map]
      rw [List.map_cons] at hq
      rcases List.mem_cons.mp hq with rfl | hq
      · exact (foldl_max_bound (rest.map Tick.tick) t.tick).1
      · exact (foldl_max_bound (rest.map Tick.tick) t.tick).2 q hq
    · show rest.foldl (fun a x => min a x.tick) t.tick ∈
        (t :: rest).map Tick.tick
      rw [← List.foldl_map, List.map_cons]
      rcases foldl_min_mem (rest.map Tick.tick) t.tick with h | h
      · rw [h]
        exact List.mem_cons_self _ _
      · exact List.mem_cons_of_mem _ h
    · intro q hq
      show rest.foldl (fun a x => min a x.tick) t.tick ≤ q
      rw [← List.foldl_map]
      rw [List.map_cons] at hq
      rcases List.mem_cons.mp hq with rfl | hq
      · exact (foldl_min_bound (rest.map Tick.tick) t.tick).1
      · exact (foldl_min_bound (rest.map Tick.tick) t.tick).2 q hq
    · show (rest.getLastD t).tick = ((t :: rest).getLastD d).tick
      rw [List.getLastD_cons]

/-- C7: for a strictly time-ordered tick stream, after aggregating a
prefix `pre`, feeding the next tick `t` emits a bar iff `pre` is nonempty
and `t` falls in a different (later) aggregation window than the last
tick of `pre` — never from the still-filling window, and the first
window emits nothing until a second window begins — and the emitted bar
is the OHLC of exactly the ticks of the finalized window: open = first
price, high = max of prices, low = min of prices, close = last price. -/
theorem bar_emitted_on_rollover_with_ohlc (dur : ℕ) (pre : List Tick)
    (t d : Tick)
    (hs : (pre ++ [t]).Pairwise (fun a b => a.time < b.time)) :
    ((feedTick dur (feedAll dur [] pre).2 t).2 ≠ none ↔
      (pre ≠ [] ∧
        bucket dur t.time ≠ bucket dur ((pre.getLastD d).time))) ∧
    (∀ b, (feedTick dur (feedAll dur [] pre).2 t).2 = some b →
      b.«open» = ((pre.filter (fun x => bucket dur x.time =
          bucket dur ((pre.getLastD d).time))).headD d).tick ∧
      (b.high ∈ (pre.filter (fun x => bucket dur x.time =
          bucket dur ((pre.getLastD d).time))).map Tick.tick ∧
        ∀ q ∈ (pre.filter (fun x => bucket dur x.time =
          bucket dur ((pre.getLastD d).time))).map Tick.tick,
          q ≤ b.high) ∧
      (b.low ∈ (pre.filter (fun x => bucket dur x.time =
          bucket dur ((pre.getLastD d).time))).map Tick.tick ∧
        ∀ q ∈ (pre.filter (fun x => bucket dur x.time =
          bucket dur ((pre.getLastD d).time))).map Tick.tick,
          b.low ≤ q) ∧
      b.close = ((pre.filter (fun x => bucket dur x.time =
          bucket dur ((pre.getLastD d).time))).getLastD d).tick) := by
  by_cases hpre : pre = []
  · subst hpre
    have hcb : (feedAll dur [] ([] : List Tick)).2 = [] := rfl
    rw [hcb, feedTick_same_bucket dur [] t (bucket dur t.time)
      (fun x hx => absurd hx (List.not_mem_nil x)) rfl]
    refine ⟨⟨fun h => absurd rfl h, fun h => absurd rfl h.1⟩, ?_⟩
    intro b hbb
    cases hbb
  · have hsl : pre.Pairwise (fun a b => a.time < b.time) :=
      (List.pairwise_append.mp hs).1
    have hlast := feedAll_currentBar dur d pre hsl hpre
    have hlt : ∀ x ∈ pre, x.time < t.time :=
      fun x hx =>
        (List.pairwise_append.mp hs).2.2 x hx t (List.mem_singleton_self t)
    have hBle : bucket dur ((pre.getLastD d).time) ≤ bucket dur t.time :=
      Nat.div_le_div_right (le_of_lt (hlt _ (getLastD_mem hpre d)))
    have hcbB : ∀ x ∈ (feedAll dur [] pre).2,
        bucket dur x.time = bucket dur ((pre.getLastD d).time) := by
      intro x hx
      rw [hlast] at hx
      exact of_decide_eq_true (List.mem_filter.mp hx).2
    have hcbne : (feedAll dur [] pre).2 ≠ [] := by
      rw [hlast]
      exact List.ne_nil_of_mem
        (List.mem_filter.mpr ⟨getLastD_mem hpre d, by simp⟩)
    by_cases hb : bucket dur t.time = bucket dur ((pre.getLastD d).time)
    · rw [feedTick_same_bucket dur _ t _ hcbB hb]
      refine ⟨⟨fun h => absurd rfl h, fun h => absurd hb h.2⟩, ?_⟩
      intro b hbb
      cases hbb
    · have hblt : bucket dur ((pre.getLastD d).time) < bucket dur t.time :=
        lt_of_le_of_ne hBle (fun he => hb he.symm)
      rw [feedTick_new_bucket dur _ t _ hcbne hcbB hblt]
      refine ⟨⟨fun _ => ⟨hpre, hb⟩, fun _ => by simp⟩, ?_⟩
      intro b hbb
      have hbeq : b = ohlc (feedAll dur [] pre).2 :=
        (Option.some.inj hbb).symm
      subst hbeq
      rw [hlast] at hcbne ⊢
      exact ohlc_fields _ hcbne d

theorem bar_emitted_on_rollover_with_ohlc_witness :
    (feedTick 300 (feedAll 300 []
      [⟨0, 1⟩, ⟨60, 3⟩, ⟨120, 2⟩]).2 ⟨300, 5⟩).2 ≠ none :=
  (bar_emitted_on_rollover_with_ohlc 300 [⟨0, 1⟩, ⟨60, 3⟩, ⟨120, 2⟩]
    ⟨300, 5⟩ ⟨0, 0⟩ (by decide)).1.mpr ⟨by simp, by decide⟩
